import Mathlib

/-!
Verification of the mail-clustering pipeline: mail parsing (`mailanalysis.py`),
feature aggregation (`features.py`) and epsilon-threshold connected-component
extraction with its composite metric (`persistence.py`).

Python strings are modelled as `List Char`, Python ints as `ℤ`/`ℕ`, and exact
numeric values (Python floats in the source) as `ℚ`; `numpy.sqrt` is modelled
as `Real.sqrt`.  Python dicts (always built by insertion here) are modelled as
association lists in insertion order, matching Python's dict iteration order.
External collaborators (`datetime.strptime`, `scipy.sparse.csgraph`,
`ripser`) are modelled at their interface: `strptime` is an abstract
parameter, and the undirected connected-components computation of
`scipy.sparse.csgraph.connected_components` is modelled by the reflexive
transitive closure of the nonzero-entry adjacency of the matrix it is given,
with component labels renamed to the canonical least member index (the
numeric values of scipy's labels are internal to that library; the grouping
they induce is what the code consumes).
-/

/-- Python strings, as lists of characters. -/
abbrev PyStr := List Char

/-- Python `str.find(c)` for a one-character needle: index of the first
occurrence, or `-1` when absent. -/
def pyFind (c : Char) : PyStr → Int
  | [] => -1
  | x :: r =>
    if x = c then 0
    else
      let k := pyFind c r
      if k = -1 then -1 else k + 1

/-- Python `str.find(ab)` for a two-character needle `ab`: index of the first
occurrence, or `-1` when absent. -/
def pyFindPair (a b : Char) : PyStr → Int
  | [] => -1
  | [_] => -1
  | x :: y :: r =>
    if x = a ∧ y = b then 0
    else
      let k := pyFindPair a b (y :: r)
      if k = -1 then -1 else k + 1

/-- Python slicing `s[a:b]`: negative indices count from the end, then both
bounds are clamped to `[0, len(s)]`. -/
def pySlice (s : PyStr) (a b : Int) : PyStr :=
  let n : Int := s.length
  let a2 := (max (if a < 0 then a + n else a) 0).toNat
  let b2 := (min (if b < 0 then b + n else b) n).toNat
  (s.take b2).drop a2

/-- Python `s.split(ab)` for a two-character separator `ab`: split at each
non-overlapping occurrence, scanning left to right, keeping empty pieces. -/
def splitPair (a b : Char) : PyStr → List PyStr
  | [] => [[]]
  | [x] => [[x]]
  | x :: y :: r =>
    if x = a ∧ y = b then [] :: splitPair a b r
    else
      match splitPair a b (y :: r) with
      | [] => [[x]]
      | h :: t => (x :: h) :: t

/-- Python `ab in s` for a two-character needle. -/
def hasPair (a b : Char) : PyStr → Bool
  | [] => false
  | [_] => false
  | x :: y :: r => (decide (x = a ∧ y = b)) || hasPair a b (y :: r)

/-- Python `str.lower()` (ASCII view, sufficient for the inputs considered). -/
def pyLower (s : PyStr) : PyStr := s.map Char.toLower

/-- Python 3 `round` on an exact value: round half to even (banker's
rounding), which is what `round` performs on the true-division results in
`features.py`. -/
def pyRound (q : ℚ) : ℤ :=
  if Int.fract q < 1/2 then ⌊q⌋
  else if (1 : ℚ)/2 < Int.fract q then ⌊q⌋ + 1
  else if ⌊q⌋ % 2 = 0 then ⌊q⌋ else ⌊q⌋ + 1

/-- A `datetime.datetime` as consumed by `features.py`: only the fields the
code reads (`hour`, `minute`, `second`) and the value of `weekday()`. -/
structure PyDateTime where
  hour : ℕ
  minute : ℕ
  second : ℕ
  weekday : ℕ
deriving DecidableEq

/-- `t.hour * 3600 + t.minute * 60 + t.second` from
`average_timestamps_in_seconds` (features.py line 49). -/
def seconds_of_timestamp (t : PyDateTime) : ℕ :=
  t.hour * 3600 + t.minute * 60 + t.second

/-- The sender loop of `average_timestamps_in_seconds` (features.py lines
43-52).  The first argument is the running value of `seconds_total`, which
the source initializes once, before the loop over senders, and never resets.
A sender with an empty timestamp list raises `ZeroDivisionError` in Python;
here the claims only concern non-empty lists (division by zero yields the
junk value `0`). -/
def average_timestamps_go (seconds_total : ℕ) :
    List (PyStr × List PyDateTime) → List (PyStr × ℤ)
  | [] => []
  | (sender, ts) :: rest =>
    let total2 := seconds_total + (ts.map seconds_of_timestamp).sum
    (sender, pyRound ((total2 : ℚ) / (ts.length : ℚ))) ::
      average_timestamps_go total2 rest

/-- `average_timestamps_in_seconds` (features.py lines 34-54): the average
timestamp in seconds since midnight for each sender, with `seconds_total`
initialized to `0` once for the whole input dictionary. -/
def average_timestamps_in_seconds
    (datetimes_per_sender : List (PyStr × List PyDateTime)) : List (PyStr × ℤ) :=
  average_timestamps_go 0 datetimes_per_sender

/-- `weekday_average` (features.py lines 57-75): per sender, the rounded mean
of the `weekday()` values; this one uses a list comprehension scoped to the
sender, so there is no shared accumulator. -/
def weekday_average
    (datetime_per_sender : List (PyStr × List PyDateTime)) : List (PyStr × ℤ) :=
  datetime_per_sender.map fun p =>
    (p.1, pyRound (((p.2.map PyDateTime.weekday).sum : ℚ) / (p.2.length : ℚ)))

/-- Sample timestamp 00:00:01 on a Monday. -/
def tOneSecond : PyDateTime := ⟨0, 0, 1, 0⟩

/-- Sample timestamp 00:00:02 on a Monday. -/
def tTwoSeconds : PyDateTime := ⟨0, 0, 2, 0⟩

/-- Sample timestamp 23:59:59 on a Monday. -/
def tLateNight : PyDateTime := ⟨23, 59, 59, 0⟩

lemma pyRound_intCast (m : ℤ) : pyRound (m : ℚ) = m := by
  unfold pyRound
  rw [Int.fract_intCast, Int.floor_intCast]
  norm_num

lemma pyRound_natCast (m : ℕ) : pyRound (m : ℚ) = m := by
  have h := pyRound_intCast (m : ℤ)
  rw [Int.cast_natCast] at h
  exact h

/-- C1: `average_timestamps_in_seconds` does NOT reset its accumulator per
sender: `seconds_total` is initialized once before the sender loop
(features.py line 43), so earlier senders' timestamps leak into later
senders' averages.  With sender `a` owning a single 00:00:01 timestamp and
sender `b` a single 00:00:02 timestamp, the code yields 3 for `b`, while the
round of the mean over `b`'s own timestamps is 2. -/
theorem C1_shared_accumulator_leaks :
    average_timestamps_in_seconds [(['a'], [tOneSecond]), (['b'], [tTwoSeconds])] =
      [(['a'], 1), (['b'], 3)] ∧
    pyRound ((([tTwoSeconds].map seconds_of_timestamp).sum : ℚ) /
      (([tTwoSeconds].length : ℕ) : ℚ)) = 2 ∧ (3 : ℤ) ≠ 2 := by
  refine ⟨?_, ?_, by decide⟩
  · simp only [average_timestamps_in_seconds, average_timestamps_go]
    norm_num [seconds_of_timestamp, tOneSecond, tTwoSeconds, pyRound, Int.fract]
  · norm_num [seconds_of_timestamp, tTwoSeconds, pyRound, Int.fract]

/-- C2: because of the shared accumulator of C1, the produced
`avg_seconds_since_midnight` can leave `[0, 86400)`: with two senders each
owning one 23:59:59 timestamp (86399 seconds), the second sender receives
172798 ≥ 86400.  (The claim's weekday half is unaffected: `weekday_average`
scopes its data per sender.) -/
theorem C2_avg_seconds_out_of_range :
    average_timestamps_in_seconds [(['a'], [tLateNight]), (['b'], [tLateNight])] =
      [(['a'], 86399), (['b'], 172798)] ∧
    ¬ ((172798 : ℤ) < 86400) := by
  constructor
  · simp only [average_timestamps_in_seconds, average_timestamps_go]
    norm_num [seconds_of_timestamp, tLateNight, pyRound, Int.fract]
  · decide

/-- Errors raised by `parse_datetime` (mailanalysis.py lines 72-97); both are
Python `ValueError`s and neither is caught by `parse_mails`. -/
inductive PyErr where
  | unpackValueError : PyErr
  | formatValueError : PyErr
deriving DecidableEq

/-- A message of the mailbox as read by `parse_mails`: the optional raw
header strings `message['From']` and `message['Date']`. -/
structure Message where
  sender? : Option PyStr
  date? : Option PyStr
deriving DecidableEq

/-- The sender-normalization part of `parse_mails` (mailanalysis.py lines
42-51), returning `none` where the source executes `continue`:
no `'@'`, or `sender.split('@')` not of length 2; otherwise the bracket
slice `sender[sender.find(' <') + 2:sender.find('>')]` is taken when both
`'<'` and `'>'` occur, and the result is lowercased. -/
def normalize_sender (sender : PyStr) : Option PyStr :=
  if '@' ∉ sender then none
  else if (sender.splitOn '@').length ≠ 2 then none
  else
    let s := if '<' ∈ sender ∧ '>' ∈ sender then
        pySlice sender (pyFindPair ' ' '<' sender + 2) (pyFind '>' sender)
      else sender
    some (pyLower s)

/-- `datum[:datum.find(':') + 6]` (mailanalysis.py line 54). -/
def date_string (datum : PyStr) : PyStr :=
  pySlice datum 0 (pyFind ':' datum + 6)

/-- The offset-stripping prologue of `parse_datetime` (mailanalysis.py lines
82-84): `if ' +' in datum: datum, _ = datum.split(' +')`.  Unpacking into
exactly two names raises `ValueError` when the split yields more than two
parts.  (The subsequent `datum.strip()` on line 84 discards its result in
the source, so it has no effect.) -/
def strip_offset (datum : PyStr) : Except PyErr PyStr :=
  if hasPair ' ' '+' datum then
    match splitPair ' ' '+' datum with
    | [d, _] => .ok d
    | _ => .error .unpackValueError
  else .ok datum

/-- The four `format_string` patterns tried by `parse_datetime`
(mailanalysis.py lines 87-88), in order. -/
def format_strings : List PyStr :=
  ["%a, %d %b %Y %H:%M:%S".toList, "%a, %d %b %Y %H:%M".toList,
   "%d %b %Y %H:%M:%S".toList, "%d %b %Y %H:%M".toList]

/-- `parse_datetime` (mailanalysis.py lines 72-97), parameterized by the
external `datetime.datetime.strptime` (arguments: datum, format; `none`
models a `ValueError` for that format).  The first matching format wins;
when every format fails the `for`-`else` raises a `ValueError`. -/
def parse_datetime (strptime : PyStr → PyStr → Option PyDateTime)
    (datum : PyStr) : Except PyErr PyDateTime :=
  match strip_offset datum with
  | .error e => .error e
  | .ok d =>
    match format_strings.findSome? (fun fmt => strptime d fmt) with
    | some dt => .ok dt
    | none => .error .formatValueError

/-- `mails_per_address[sender] += 1` on a `defaultdict(int)` (mailanalysis.py
line 52): update the first matching key, else append the new key with
count 1 (Python dicts preserve insertion order). -/
def bump (m : List (PyStr × ℕ)) (k : PyStr) : List (PyStr × ℕ) :=
  match m with
  | [] => [(k, 1)]
  | (a, c) :: r => if a = k then (a, c + 1) :: r else (a, c) :: bump r k

/-- `datetimes_per_sender[sender].append(datetime_obj)` on a
`defaultdict(list)` (mailanalysis.py line 57). -/
def push_datetime (m : List (PyStr × List PyDateTime)) (k : PyStr)
    (d : PyDateTime) : List (PyStr × List PyDateTime) :=
  match m with
  | [] => [(k, [d])]
  | (a, l) :: r =>
    if a = k then (a, l ++ [d]) :: r else (a, l) :: push_datetime r k d

/-- Dictionary read with a default: first matching key wins. -/
def lookupD {β : Type _} (m : List (PyStr × β)) (k : PyStr) (dflt : β) : β :=
  match m with
  | [] => dflt
  | (a, v) :: r => if a = k then v else lookupD r k dflt

/-- The message loop of `parse_mails` (mailanalysis.py lines 30-57), carrying
the two dictionaries; a date-parsing `ValueError` propagates and aborts the
whole loop (there is no `try` around `parse_datetime`). -/
def parse_mails_go (strptime : PyStr → PyStr → Option PyDateTime) :
    List Message → List (PyStr × ℕ) → List (PyStr × List PyDateTime) →
    Except PyErr (List (PyStr × ℕ) × List (PyStr × List PyDateTime))
  | [], mpa, dps => .ok (mpa, dps)
  | msg :: rest, mpa, dps =>
    match msg.sender?, msg.date? with
    | some sender, some datum =>
      match normalize_sender sender with
      | none => parse_mails_go strptime rest mpa dps
      | some s =>
        match parse_datetime strptime (date_string datum) with
        | .error e => .error e
        | .ok dt =>
          parse_mails_go strptime rest (bump mpa s) (push_datetime dps s dt)
    | _, _ => parse_mails_go strptime rest mpa dps

/-- The threshold pass of `parse_mails` (mailanalysis.py lines 61-67): keep
each address whose count reaches `THRESHOLD`, copying its count and its
datetime list into the two result dictionaries in the same single pass. -/
def threshold_filter (THRESHOLD : ℤ) (mpa : List (PyStr × ℕ))
    (dps : List (PyStr × List PyDateTime)) :
    List (PyStr × ℕ) × List (PyStr × List PyDateTime) :=
  let kept := mpa.filter fun p => THRESHOLD ≤ (p.2 : ℤ)
  (kept, kept.map fun p => (p.1, lookupD dps p.1 []))

/-- `parse_mails` (mailanalysis.py lines 14-69). -/
def parse_mails (strptime : PyStr → PyStr → Option PyDateTime)
    (mail : List Message) (THRESHOLD : ℤ) :
    Except PyErr (List (PyStr × ℕ) × List (PyStr × List PyDateTime)) :=
  match parse_mails_go strptime mail [] [] with
  | .error e => .error e
  | .ok (mpa, dps) => .ok (threshold_filter THRESHOLD mpa dps)

deriving instance DecidableEq for Except

/-- C4: `parse_mails` slices with `sender[sender.find(' <') + 2:sender.find('>')]`,
whose start is the index just after `'<'` only when the first `'<'` is
preceded by a space or sits at position 0.  For the header "Name<a@b.com>"
(exactly one `'@'`, both brackets present) the code stores "ame<a@b.com",
not the substring strictly between `'<'` and `'>'`, which is "a@b.com"
(indices 5 to 11, the first `'<'` being at index 4 and the first `'>'` at
index 12). -/
theorem C4_bracket_extraction_divergence :
    normalize_sender "Name<a@b.com>".toList = some "ame<a@b.com".toList ∧
    "Name<a@b.com>".toList.count '@' = 1 ∧
    '<' ∈ "Name<a@b.com>".toList ∧ '>' ∈ "Name<a@b.com>".toList ∧
    pySlice "Name<a@b.com>".toList 5 12 = "a@b.com".toList ∧
    "ame<a@b.com".toList ≠ "a@b.com".toList := by
  decide

lemma parse_datetime_error_of_all_fail
    (strptime : PyStr → PyStr → Option PyDateTime) (d stripped : PyStr)
    (hstrip : strip_offset d = .ok stripped)
    (hall : ∀ fmt ∈ format_strings, strptime stripped fmt = none) :
    parse_datetime strptime d = .error .formatValueError := by
  have h2 : format_strings.findSome? (fun fmt => strptime stripped fmt) = none :=
    List.findSome?_eq_none_iff.mpr hall
  unfold parse_datetime
  rw [hstrip]
  simp only [h2]

lemma parse_mails_go_error_of_bad_date
    (strptime : PyStr → PyStr → Option PyDateTime) (msg : Message)
    (s d ns stripped : PyStr) :
    ∀ (ms : List Message) (mpa : List (PyStr × ℕ))
      (dps : List (PyStr × List PyDateTime)),
    msg ∈ ms → msg.sender? = some s → msg.date? = some d →
    normalize_sender s = some ns →
    strip_offset (date_string d) = .ok stripped →
    (∀ fmt ∈ format_strings, strptime stripped fmt = none) →
    ∃ e, parse_mails_go strptime ms mpa dps = .error e := by
  intro ms
  induction ms with
  | nil => intro mpa dps hmem; exact absurd hmem (List.not_mem_nil msg)
  | cons m rest ih =>
    intro mpa dps hmem hs hd hns hstrip hall
    rcases List.mem_cons.mp hmem with rfl | hmem'
    · simp only [parse_mails_go, hs, hd, hns,
        parse_datetime_error_of_all_fail strptime (date_string d) stripped
          hstrip hall]
      exact ⟨_, rfl⟩
    · rcases hsm : m.sender? with _ | sm
      · simp only [parse_mails_go, hsm]
        exact ih mpa dps hmem' hs hd hns hstrip hall
      · rcases hdm : m.date? with _ | dm
        · simp only [parse_mails_go, hsm, hdm]
          exact ih mpa dps hmem' hs hd hns hstrip hall
        · rcases hnm : normalize_sender sm with _ | nm
          · simp only [parse_mails_go, hsm, hdm, hnm]
            exact ih mpa dps hmem' hs hd hns hstrip hall
          · rcases hpm : parse_datetime strptime (date_string dm) with e | dt
            · simp only [parse_mails_go, hsm, hdm, hnm, hpm]
              exact ⟨e, rfl⟩
            · simp only [parse_mails_go, hsm, hdm, hnm, hpm]
              exact ih _ _ hmem' hs hd hns hstrip hall

/-- C9: when some processed message's date string (after the
`datum[:datum.find(':') + 6]` truncation and offset-stripping) matches none
of the four supported patterns, `parse_datetime` raises a `ValueError` which
`parse_mails` does not catch, so the whole run aborts with an error instead
of skipping that message. -/
theorem C9_unparsable_date_aborts_run
    (strptime : PyStr → PyStr → Option PyDateTime) (mail : List Message)
    (THRESHOLD : ℤ) (msg : Message) (s d ns stripped : PyStr)
    (hmem : msg ∈ mail) (hs : msg.sender? = some s) (hd : msg.date? = some d)
    (hns : normalize_sender s = some ns)
    (hstrip : strip_offset (date_string d) = .ok stripped)
    (hall : ∀ fmt ∈ format_strings, strptime stripped fmt = none) :
    ∃ e, parse_mails strptime mail THRESHOLD = .error e := by
  obtain ⟨e, he⟩ := parse_mails_go_error_of_bad_date strptime msg s d ns
    stripped mail [] [] hmem hs hd hns hstrip hall
  exact ⟨e, by unfold parse_mails; rw [he]⟩

/-- Witness for C9 at a concrete mailbox whose single message has an
unparsable date. -/
theorem C9_unparsable_date_aborts_run_witness :
    (⟨some "a@b".toList, some "x".toList⟩ : Message) ∈
      [(⟨some "a@b".toList, some "x".toList⟩ : Message)] ∧
    normalize_sender "a@b".toList = some "a@b".toList ∧
    strip_offset (date_string "x".toList) = .ok "x".toList ∧
    ∃ e, parse_mails (fun _ _ => none)
      [⟨some "a@b".toList, some "x".toList⟩] 1 = .error e :=
  ⟨by decide, by decide, by decide,
    C9_unparsable_date_aborts_run (fun _ _ => none)
      [⟨some "a@b".toList, some "x".toList⟩] 1
      ⟨some "a@b".toList, some "x".toList⟩ "a@b".toList "x".toList
      "a@b".toList "x".toList (by decide) rfl rfl (by decide)
      (by decide) (fun _ _ => rfl)⟩

lemma lookupD_bump (m : List (PyStr × ℕ)) (k q : PyStr) :
    lookupD (bump m k) q 0 = if k = q then lookupD m q 0 + 1 else lookupD m q 0 := by
  induction m with
  | nil =>
    by_cases h : k = q <;> simp [bump, lookupD, h]
  | cons p r ih =>
    obtain ⟨a, c⟩ := p
    by_cases hak : a = k
    · subst hak
      by_cases haq : a = q
      · subst haq; simp [bump, lookupD]
      · simp [bump, lookupD, haq, fun h : a = q => haq h]
    · by_cases haq : a = q
      · subst haq
        have hka : ¬ (k = a) := fun h => hak h.symm
        simp [bump, lookupD, hak, hka]
      · simp [bump, lookupD, hak, haq, ih]

lemma lookupD_push (m : List (PyStr × List PyDateTime)) (k q : PyStr)
    (dt : PyDateTime) :
    lookupD (push_datetime m k dt) q [] =
      if k = q then lookupD m q [] ++ [dt] else lookupD m q [] := by
  induction m with
  | nil =>
    by_cases h : k = q <;> simp [push_datetime, lookupD, h]
  | cons p r ih =>
    obtain ⟨a, l⟩ := p
    by_cases hak : a = k
    · subst hak
      by_cases haq : a = q
      · subst haq; simp [push_datetime, lookupD]
      · simp [push_datetime, lookupD, haq, fun h : a = q => haq h]
    · by_cases haq : a = q
      · subst haq
        have hka : ¬ (k = a) := fun h => hak h.symm
        simp [push_datetime, lookupD, hak, hka]
      · simp [push_datetime, lookupD, hak, haq, ih]

lemma bump_keys (m : List (PyStr × ℕ)) (k : PyStr) :
    (bump m k).map Prod.fst =
      if k ∈ m.map Prod.fst then m.map Prod.fst else m.map Prod.fst ++ [k] := by
  induction m with
  | nil => simp [bump]
  | cons p r ih =>
    obtain ⟨a, c⟩ := p
    by_cases hak : a = k
    · subst hak; simp [bump]
    · have hka : ¬ (k = a) := fun h => hak h.symm
      by_cases hkr : k ∈ r.map Prod.fst
      · simp [bump, hak, ih, hkr, hka, List.mem_cons]
      · simp [bump, hak, ih, hkr, hka, List.mem_cons]

lemma bump_keys_nodup (m : List (PyStr × ℕ)) (k : PyStr)
    (h : (m.map Prod.fst).Nodup) : ((bump m k).map Prod.fst).Nodup := by
  rw [bump_keys]
  by_cases hkm : k ∈ m.map Prod.fst
  · rw [if_pos hkm]; exact h
  · rw [if_neg hkm]
    simp only [List.nodup_append, List.nodup_cons, List.nodup_nil,
      List.disjoint_singleton]
    exact ⟨h, ⟨by simp, by simp⟩, hkm⟩

lemma lookupD_eq_of_mem (m : List (PyStr × ℕ))
    (h : (m.map Prod.fst).Nodup) (k : PyStr) (c : ℕ) (hm : (k, c) ∈ m) :
    lookupD m k 0 = c := by
  induction m with
  | nil => exact absurd hm (List.not_mem_nil _)
  | cons p r ih =>
    obtain ⟨a, v⟩ := p
    simp only [List.map_cons, List.nodup_cons] at h
    rcases List.mem_cons.mp hm with heq | hmem
    · injection heq with h1 h2
      subst h1
      subst h2
      simp [lookupD]
    · by_cases hak : a = k
      · subst hak
        exact absurd (List.mem_map_of_mem Prod.fst hmem) h.1
      · simp only [lookupD, if_neg hak]
        exact ih h.2 hmem

lemma parse_mails_go_ok_inv (strptime : PyStr → PyStr → Option PyDateTime) :
    ∀ (ms : List Message) (mpa : List (PyStr × ℕ))
      (dps : List (PyStr × List PyDateTime)) mpa' dps',
    (mpa.map Prod.fst).Nodup →
    (∀ k, (lookupD dps k []).length = lookupD mpa k 0) →
    parse_mails_go strptime ms mpa dps = .ok (mpa', dps') →
    (mpa'.map Prod.fst).Nodup ∧
      (∀ k, (lookupD dps' k []).length = lookupD mpa' k 0) := by
  intro ms
  induction ms with
  | nil =>
    intro mpa dps mpa' dps' h1 h2 hok
    simp only [parse_mails_go, Except.ok.injEq, Prod.mk.injEq] at hok
    obtain ⟨rfl, rfl⟩ := hok
    exact ⟨h1, h2⟩
  | cons m rest ih =>
    intro mpa dps mpa' dps' h1 h2 hok
    rcases hsm : m.sender? with _ | sm
    · simp only [parse_mails_go, hsm] at hok
      exact ih mpa dps mpa' dps' h1 h2 hok
    · rcases hdm : m.date? with _ | dm
      · simp only [parse_mails_go, hsm, hdm] at hok
        exact ih mpa dps mpa' dps' h1 h2 hok
      · rcases hnm : normalize_sender sm with _ | nm
        · simp only [parse_mails_go, hsm, hdm, hnm] at hok
          exact ih mpa dps mpa' dps' h1 h2 hok
        · rcases hpm : parse_datetime strptime (date_string dm) with e | dt
          · simp only [parse_mails_go, hsm, hdm, hnm, hpm] at hok
            exact Except.noConfusion hok
          · simp only [parse_mails_go, hsm, hdm, hnm, hpm] at hok
            refine ih _ _ mpa' dps' (bump_keys_nodup mpa nm h1) ?_ hok
            intro k
            rw [lookupD_bump, lookupD_push]
            by_cases h : nm = k
            · simp only [if_pos h, List.length_append, List.length_singleton, h2 k]
            · simp only [if_neg h, h2 k]

/-- C10: when `parse_mails` returns normally, its two dictionaries list
exactly the same senders (counts are bumped and datetimes appended in
lockstep, and the threshold pass copies both from the same key), and each
retained sender's stored count equals the length of its timestamp list. -/
theorem C10_count_matches_timestamps (strptime : PyStr → PyStr → Option PyDateTime)
    (mail : List Message) (THRESHOLD : ℤ)
    (mpaT : List (PyStr × ℕ)) (dpsT : List (PyStr × List PyDateTime))
    (h : parse_mails strptime mail THRESHOLD = .ok (mpaT, dpsT)) :
    mpaT.map Prod.fst = dpsT.map Prod.fst ∧
    ∀ k c, (k, c) ∈ mpaT → ∃ l, (k, l) ∈ dpsT ∧ l.length = c := by
  unfold parse_mails at h
  rcases hgo : parse_mails_go strptime mail [] [] with e | st
  · rw [hgo] at h; cases h
  · obtain ⟨mpa, dps⟩ := st
    rw [hgo] at h
    simp only [Except.ok.injEq] at h
    obtain ⟨hinv1, hinv2⟩ := parse_mails_go_ok_inv strptime mail [] [] mpa dps
      (by simp) (by intro k; simp [lookupD]) hgo
    simp only [threshold_filter, Prod.mk.injEq] at h
    obtain ⟨hk, hv⟩ := h
    have hkept : mpaT = mpa.filter (fun p => THRESHOLD ≤ (p.2 : ℤ)) := by
      rw [← hk]
    have hdps : dpsT = (mpa.filter (fun p => THRESHOLD ≤ (p.2 : ℤ))).map
        (fun p => (p.1, lookupD dps p.1 [])) := by
      rw [← hv]
    constructor
    · rw [hkept, hdps, List.map_map]
      rfl
    · intro k c hkc
      refine ⟨lookupD dps k [], ?_, ?_⟩
      · rw [hdps]
        rw [hkept] at hkc
        exact List.mem_map_of_mem _ hkc
      · rw [hkept] at hkc
        have hmem : (k, c) ∈ mpa := List.mem_of_mem_filter hkc
        rw [hinv2 k, lookupD_eq_of_mem mpa hinv1 k c hmem]

/-- Witness for C10 at a concrete mailbox and a `strptime` accepting every
date. -/
theorem C10_count_matches_timestamps_witness :
    parse_mails (fun _ _ => some tOneSecond)
        [⟨some "a@b".toList, some "x".toList⟩] 1 =
      .ok ([("a@b".toList, 1)], [("a@b".toList, [tOneSecond])]) ∧
    ([("a@b".toList, 1)].map Prod.fst =
        [("a@b".toList, [tOneSecond])].map Prod.fst ∧
      ∀ k c, (k, c) ∈ [("a@b".toList, 1)] →
        ∃ l, (k, l) ∈ [("a@b".toList, [tOneSecond])] ∧ l.length = c) :=
  ⟨by decide,
    C10_count_matches_timestamps (fun _ _ => some tOneSecond)
      [⟨some "a@b".toList, some "x".toList⟩] 1
      [("a@b".toList, 1)] [("a@b".toList, [tOneSecond])] (by decide)⟩

/-- Python's `%` on exact values (the source applies it to floats):
`x % m = x - m * floor(x / m)`. -/
def qmod (x m : ℚ) : ℚ := x - m * ⌊x / m⌋

/-- `seconds_per_day = 24 * 60 * 60` (persistence.py line 60). -/
def seconds_per_day : ℚ := 24 * 60 * 60

/-- `metric_mail_count` (persistence.py lines 38-47): `numpy.absolute` of the
difference. -/
def metric_mail_count (mail_count_1 mail_count_2 : ℚ) : ℚ :=
  |mail_count_1 - mail_count_2|

/-- `metric_seconds` (persistence.py lines 50-62): circular distance on the
one-day ring. -/
def metric_seconds (timestamp_1 timestamp_2 : ℚ) : ℚ :=
  min (qmod (timestamp_1 - timestamp_2) seconds_per_day)
    (qmod (timestamp_2 - timestamp_1) seconds_per_day)

/-- `metric_weekday` (persistence.py lines 65-74): `numpy.absolute` of the
difference (linear, not circular). -/
def metric_weekday (weekday_1 weekday_2 : ℚ) : ℚ :=
  |weekday_1 - weekday_2|

/-- The `Data` namedtuple of `product_metric` (persistence.py line 26): a
3-feature vector unpacked as (mail_count, seconds, weekday). -/
structure Features where
  mail_count : ℚ
  seconds : ℚ
  weekday : ℚ

/-- `product_metric` (persistence.py lines 16-35):
`numpy.sqrt(d_1 ** 2 + d_2 ** 2 + d_3 ** 2)`. -/
noncomputable def product_metric (nd_array_1 nd_array_2 : Features) : ℝ :=
  Real.sqrt
    (((metric_mail_count nd_array_1.mail_count nd_array_2.mail_count) ^ 2 +
      (metric_seconds nd_array_1.seconds nd_array_2.seconds) ^ 2 +
      (metric_weekday nd_array_1.weekday nd_array_2.weekday) ^ 2 : ℚ) : ℝ)

lemma qmod_eq_mul_fract (x m : ℚ) (hm : m ≠ 0) :
    qmod x m = m * Int.fract (x / m) := by
  unfold qmod
  rw [Int.fract]
  have hx : m * (x / m) = x := by field_simp
  rw [mul_sub, hx]

lemma qmod_eq_zero_of_fract (x m : ℚ) (hm : m ≠ 0)
    (h : Int.fract (x / m) = 0) : qmod x m = 0 := by
  rw [qmod_eq_mul_fract x m hm, h, mul_zero]

lemma qmod_add_qmod_neg (x m : ℚ) (hm : 0 < m)
    (h : Int.fract (x / m) ≠ 0) : qmod x m + qmod (-x) m = m := by
  rw [qmod_eq_mul_fract x m hm.ne', qmod_eq_mul_fract (-x) m hm.ne',
    neg_div, Int.fract_neg h]
  ring

/-- C7: the time sub-metric is literally
`min((a-b) mod 86400, (b-a) mod 86400)`, it is symmetric, vanishes on the
diagonal, and (in particular on timestamps within one day) never exceeds
43200: either `(a-b)/86400` is integral, making both operands 0, or the two
operands sum to exactly 86400, so their minimum is at most half of it. -/
theorem C7_metric_seconds_properties :
    (∀ a b : ℚ, metric_seconds a b =
        min (qmod (a - b) 86400) (qmod (b - a) 86400)) ∧
    (∀ a b : ℚ, metric_seconds a b = metric_seconds b a) ∧
    (∀ a : ℚ, metric_seconds a a = 0) ∧
    (∀ a b : ℚ, 0 ≤ a → a < 86400 → 0 ≤ b → b < 86400 →
        metric_seconds a b ≤ 43200) := by
  have hday : seconds_per_day = 86400 := by norm_num [seconds_per_day]
  refine ⟨?_, ?_, ?_, ?_⟩
  · intro a b
    rw [metric_seconds, hday]
  · intro a b
    rw [metric_seconds, metric_seconds, min_comm]
  · intro a
    simp [metric_seconds, qmod]
  · intro a b _ _ _ _
    rw [metric_seconds, hday]
    have hm : (0 : ℚ) < 86400 := by norm_num
    by_cases h : Int.fract ((a - b) / 86400) = 0
    · have h0 : qmod (a - b) 86400 = 0 :=
        qmod_eq_zero_of_fract (a - b) 86400 hm.ne' h
      calc min (qmod (a - b) 86400) (qmod (b - a) 86400)
          ≤ qmod (a - b) 86400 := min_le_left _ _
        _ = 0 := h0
        _ ≤ 43200 := by norm_num
    · have hsum : qmod (a - b) 86400 + qmod (-(a - b)) 86400 = 86400 :=
        qmod_add_qmod_neg (a - b) 86400 hm h
      have hrw : b - a = -(a - b) := by ring
      rw [hrw]
      have h1 := min_le_left (qmod (a - b) 86400) (qmod (-(a - b)) 86400)
      have h2 := min_le_right (qmod (a - b) 86400) (qmod (-(a - b)) 86400)
      linarith

/-- Witness for C7's bounded-range conjunct at concrete timestamps. -/
theorem C7_metric_seconds_properties_witness :
    (0 : ℚ) ≤ 0 ∧ (0 : ℚ) < 86400 ∧ (0 : ℚ) ≤ 3600 ∧ (3600 : ℚ) < 86400 ∧
    metric_seconds 0 3600 ≤ 43200 :=
  ⟨le_refl 0, by norm_num, by norm_num, by norm_num,
    C7_metric_seconds_properties.2.2.2 0 3600 (le_refl 0) (by norm_num)
      (by norm_num) (by norm_num)⟩

/-- C6: the composite metric (a pure function of its two argument vectors)
vanishes on the diagonal, is symmetric, and is non-negative. -/
theorem C6_product_metric_properties :
    (∀ x : Features, product_metric x x = 0) ∧
    (∀ x y : Features, product_metric x y = product_metric y x) ∧
    (∀ x y : Features, 0 ≤ product_metric x y) := by
  refine ⟨?_, ?_, ?_⟩
  · intro x
    have h1 : metric_mail_count x.mail_count x.mail_count = 0 := by
      simp [metric_mail_count]
    have h2 : metric_seconds x.seconds x.seconds = 0 := by
      simp [metric_seconds, qmod]
    have h3 : metric_weekday x.weekday x.weekday = 0 := by
      simp [metric_weekday]
    rw [product_metric, h1, h2, h3]
    norm_num
  · intro x y
    have h1 : metric_mail_count x.mail_count y.mail_count =
        metric_mail_count y.mail_count x.mail_count := abs_sub_comm _ _
    have h2 : metric_seconds x.seconds y.seconds =
        metric_seconds y.seconds x.seconds := min_comm _ _
    have h3 : metric_weekday x.weekday y.weekday =
        metric_weekday y.weekday x.weekday := abs_sub_comm _ _
    rw [product_metric, product_metric, h1, h2, h3]
  · intro x y
    exact Real.sqrt_nonneg _

/-- The thresholding loop of `obtain_connected_components` (persistence.py
lines 204-208): every entry of the engine's distance matrix
`persistence['dperm2all']` is overwritten in place, becoming `1.0` where it
is `≤ epsilon` and `0.0` elsewhere.  This function is the value of that
matrix after the loop. -/
def thresholdMatrix {n : ℕ} (M : Fin n → Fin n → ℚ) (epsilon : ℚ) :
    Fin n → Fin n → ℚ :=
  fun i j => if M i j ≤ epsilon then 1 else 0

/-- The adjacency consumed by
`scipy.sparse.csgraph.connected_components(..., directed=False)`: two nodes
are adjacent when either of the two symmetric entries of the thresholded
matrix is nonzero. -/
def adjB {n : ℕ} (M : Fin n → Fin n → ℚ) (epsilon : ℚ) (i j : Fin n) : Bool :=
  decide (thresholdMatrix M epsilon i j ≠ 0 ∨ thresholdMatrix M epsilon j i ≠ 0)

/-- One expansion step of the reachable set: add every out-neighbour of the
current set. -/
def stepReach {n : ℕ} (adj : Fin n → Fin n → Bool) (s : Finset (Fin n)) :
    Finset (Fin n) :=
  s ∪ s.biUnion (fun m => Finset.univ.filter (fun j => adj m j = true))

/-- All nodes reachable from `i` along `adj`-edges: `n` expansion steps
saturate on a graph with `n` nodes. -/
def reachSet {n : ℕ} (adj : Fin n → Fin n → Bool) (i : Fin n) : Finset (Fin n) :=
  (stepReach adj)^[n] {i}

lemma subset_stepReach {n : ℕ} (adj : Fin n → Fin n → Bool)
    (s : Finset (Fin n)) : s ⊆ stepReach adj s :=
  Finset.subset_union_left

lemma stepReach_mono {n : ℕ} (adj : Fin n → Fin n → Bool)
    {s t : Finset (Fin n)} (h : s ⊆ t) : stepReach adj s ⊆ stepReach adj t :=
  Finset.union_subset_union h (Finset.biUnion_subset_biUnion_of_subset_left _ h)

lemma mem_stepReach_of_adj {n : ℕ} (adj : Fin n → Fin n → Bool)
    {s : Finset (Fin n)} {m j : Fin n} (hm : m ∈ s) (hadj : adj m j = true) :
    j ∈ stepReach adj s :=
  Finset.mem_union_right _ (Finset.mem_biUnion.mpr
    ⟨m, hm, Finset.mem_filter.mpr ⟨Finset.mem_univ j, hadj⟩⟩)

lemma subset_iterate_stepReach {n : ℕ} (adj : Fin n → Fin n → Bool)
    (s : Finset (Fin n)) : ∀ k, s ⊆ (stepReach adj)^[k] s := by
  intro k
  induction k with
  | zero => simp
  | succ k ih =>
    rw [Function.iterate_succ_apply']
    exact ih.trans (subset_stepReach adj _)

lemma iterate_stepReach_fix {n : ℕ} (adj : Fin n → Fin n → Bool)
    (s : Finset (Fin n)) (j : ℕ)
    (hfix : stepReach adj ((stepReach adj)^[j] s) = (stepReach adj)^[j] s) :
    ∀ k, j ≤ k → (stepReach adj)^[k] s = (stepReach adj)^[j] s := by
  intro k hk
  induction k with
  | zero =>
    have : j = 0 := Nat.le_zero.mp hk
    rw [this]
  | succ k ih =>
    rcases Nat.lt_or_ge j (k + 1) with hlt | hge
    · have hjk : j ≤ k := Nat.lt_succ_iff.mp hlt
      rw [Function.iterate_succ_apply', ih hjk, hfix]
    · have : j = k + 1 := le_antisymm hk hge
      rw [this]

lemma stepReach_growth {n : ℕ} (adj : Fin n → Fin n → Bool)
    (s : Finset (Fin n)) :
    ∀ k, (∃ j, j < k ∧
        stepReach adj ((stepReach adj)^[j] s) = (stepReach adj)^[j] s) ∨
      k + s.card ≤ ((stepReach adj)^[k] s).card := by
  intro k
  induction k with
  | zero => right; simp
  | succ k ih =>
    rcases ih with ⟨j, hj, hfix⟩ | hcard
    · exact Or.inl ⟨j, Nat.lt_succ_of_lt hj, hfix⟩
    · by_cases hfix : stepReach adj ((stepReach adj)^[k] s) = (stepReach adj)^[k] s
      · exact Or.inl ⟨k, Nat.lt_succ_self k, hfix⟩
      · right
        have hss : (stepReach adj)^[k] s ⊂ (stepReach adj)^[k + 1] s := by
          rw [Function.iterate_succ_apply']
          exact ssubset_of_subset_of_ne (subset_stepReach adj _)
            (fun h => hfix h.symm)
        have := Finset.card_lt_card hss
        omega

lemma stepReach_reachSet_fix {n : ℕ} (adj : Fin n → Fin n → Bool) (i : Fin n) :
    stepReach adj (reachSet adj i) = reachSet adj i := by
  rcases stepReach_growth adj {i} n with ⟨j, hj, hfix⟩ | hcard
  · unfold reachSet
    rw [iterate_stepReach_fix adj {i} j hfix n (Nat.le_of_lt hj)]
    exact hfix
  · exfalso
    have hle : ((stepReach adj)^[n] {i}).card ≤ n := by
      have := Finset.card_le_univ ((stepReach adj)^[n] ({i} : Finset (Fin n)))
      simpa using this
    simp only [Finset.card_singleton] at hcard
    omega

/-- The connectivity relation used by the undirected connected-components
computation: reflexive-transitive closure of the adjacency. -/
def connRel {n : ℕ} (adj : Fin n → Fin n → Bool) : Fin n → Fin n → Prop :=
  Relation.ReflTransGen (fun a b => adj a b = true)

lemma mem_reachSet_self {n : ℕ} (adj : Fin n → Fin n → Bool) (i : Fin n) :
    i ∈ reachSet adj i :=
  subset_iterate_stepReach adj {i} n (Finset.mem_singleton_self i)

lemma connRel_of_mem_reachSet {n : ℕ} (adj : Fin n → Fin n → Bool)
    {i j : Fin n} (h : j ∈ reachSet adj i) : connRel adj i j := by
  suffices hall : ∀ k (j : Fin n), j ∈ (stepReach adj)^[k] ({i} : Finset (Fin n)) →
      connRel adj i j from hall n j h
  intro k
  induction k with
  | zero =>
    intro j hj
    simp only [Function.iterate_zero_apply, Finset.mem_singleton] at hj
    rw [hj]
    exact Relation.ReflTransGen.refl
  | succ k ih =>
    intro j hj
    rw [Function.iterate_succ_apply'] at hj
    rcases Finset.mem_union.mp hj with hin | hstep
    · exact ih j hin
    · obtain ⟨m, hm, hjf⟩ := Finset.mem_biUnion.mp hstep
      have hadj : adj m j = true := (Finset.mem_filter.mp hjf).2
      exact Relation.ReflTransGen.tail (ih m hm) hadj

lemma mem_reachSet_of_connRel {n : ℕ} (adj : Fin n → Fin n → Bool)
    {i j : Fin n} (h : connRel adj i j) : j ∈ reachSet adj i := by
  induction h with
  | refl => exact mem_reachSet_self adj i
  | tail hab hbc ih =>
    have := mem_stepReach_of_adj adj ih hbc
    rwa [stepReach_reachSet_fix adj i] at this

lemma mem_reachSet_iff {n : ℕ} (adj : Fin n → Fin n → Bool) (i j : Fin n) :
    j ∈ reachSet adj i ↔ connRel adj i j :=
  ⟨connRel_of_mem_reachSet adj, mem_reachSet_of_connRel adj⟩

lemma adjB_symm {n : ℕ} (M : Fin n → Fin n → ℚ) (epsilon : ℚ) (i j : Fin n) :
    adjB M epsilon i j = adjB M epsilon j i := by
  unfold adjB
  exact decide_eq_decide.mpr or_comm

lemma connRel_symm {n : ℕ} (adj : Fin n → Fin n → Bool)
    (hsym : ∀ a b, adj a b = adj b a) {i j : Fin n}
    (h : connRel adj i j) : connRel adj j i :=
  Relation.ReflTransGen.symmetric
    (fun a b (hab : adj a b = true) => (hsym a b ▸ hab : adj b a = true)) h

lemma reachSet_eq_of_connRel {n : ℕ} (adj : Fin n → Fin n → Bool)
    (hsym : ∀ a b, adj a b = adj b a) {i j : Fin n}
    (h : connRel adj i j) : reachSet adj i = reachSet adj j := by
  ext k
  rw [mem_reachSet_iff, mem_reachSet_iff]
  constructor
  · intro hik
    exact Relation.ReflTransGen.trans (connRel_symm adj hsym h) hik
  · intro hjk
    exact Relation.ReflTransGen.trans h hjk

/-- The component label assigned to node `i`: the least node connected to
`i`.  (scipy numbers its labels internally; only the induced grouping is
observable through the returned dictionaries, so labels are normalized to
the canonical least member.) -/
def componentLabel {n : ℕ} (M : Fin n → Fin n → ℚ) (epsilon : ℚ) (i : Fin n) :
    Fin n :=
  (reachSet (adjB M epsilon) i).min' ⟨i, mem_reachSet_self (adjB M epsilon) i⟩

lemma connRel_componentLabel {n : ℕ} (M : Fin n → Fin n → ℚ) (epsilon : ℚ)
    (i : Fin n) : connRel (adjB M epsilon) i (componentLabel M epsilon i) :=
  connRel_of_mem_reachSet _ (Finset.min'_mem _ _)

lemma componentLabel_eq_iff {n : ℕ} (M : Fin n → Fin n → ℚ) (epsilon : ℚ)
    (i j : Fin n) :
    componentLabel M epsilon i = componentLabel M epsilon j ↔
      connRel (adjB M epsilon) i j := by
  constructor
  · intro h
    have hi := connRel_componentLabel M epsilon i
    have hj := connRel_componentLabel M epsilon j
    rw [h] at hi
    exact Relation.ReflTransGen.trans hi
      (connRel_symm _ (adjB_symm M epsilon) hj)
  · intro h
    have hset : reachSet (adjB M epsilon) i = reachSet (adjB M epsilon) j :=
      reachSet_eq_of_connRel _ (adjB_symm M epsilon) h
    unfold componentLabel
    congr 1

/-- `labels[i]` as consumed by the grouping loop of
`obtain_connected_components` (persistence.py lines 212-214), as a function
of a plain position `i < n` (values at `i ≥ n` are irrelevant junk). -/
def labelNat {n : ℕ} (M : Fin n → Fin n → ℚ) (epsilon : ℚ) (i : ℕ) : ℕ :=
  if h : i < n then (componentLabel M epsilon ⟨i, h⟩ : Fin n).val else i

/-- The distinct labels in first-occurrence order: the key order of the two
`defaultdict`s built by the grouping loop (Python dicts preserve insertion
order). -/
def labelKeys {n : ℕ} (M : Fin n → Fin n → ℚ) (epsilon : ℚ) : List ℕ :=
  ((List.range n).map (labelNat M epsilon)).dedup

/-- The member list collected for label `k`: entries of `l` at the positions
whose label is `k`, in increasing position order (the loop appends for
`i = 0..n-1` in order). -/
def membersOf {n : ℕ} {β : Type _} [Inhabited β] (M : Fin n → Fin n → ℚ)
    (epsilon : ℚ) (l : List β) (k : ℕ) : List β :=
  (((List.range n).filter (fun i => labelNat M epsilon i = k)).map
    (fun i => l.getD i default))

/-- `obtain_connected_components` (persistence.py lines 185-219) for an
`n × n` distance matrix `persistence['dperm2all']`: threshold the matrix at
`epsilon` (in place in the source; see `thresholdMatrix`), compute undirected
connected components of the nonzero-adjacency, and group data points and
identifiers by component label.  The source raises when the label count `n`
differs from `len(data_points)`, and the loop's `identifiers[i]` raises
`IndexError` when `identifiers` is shorter than `n`. -/
def obtain_connected_components {n : ℕ} {α β : Type _} [Inhabited α]
    [Inhabited β] (data_points : List α) (identifiers : List β)
    (M : Fin n → Fin n → ℚ) (epsilon : ℚ) :
    Except String (List (ℕ × List α) × List (ℕ × List β)) :=
  if data_points.length = n then
    if n ≤ identifiers.length then
      .ok ((labelKeys M epsilon).map
            (fun k => (k, membersOf M epsilon data_points k)),
          (labelKeys M epsilon).map
            (fun k => (k, membersOf M epsilon identifiers k)))
    else .error "IndexError"
  else .error "Number of data points and number of elements of all connected components are not equal!"

/-- The 2x2 distance matrix [[0, 2], [2, 0]]. -/
def M2 : Fin 2 → Fin 2 → ℚ :=
  fun i j => (([[0, 2], [2, 0]].getD i.val []).getD j.val 0)

/-- C3: `obtain_connected_components` DOES mutate the engine's distance
matrix: the `numpy.nditer(..., op_flags=['readwrite'])` loop overwrites
every entry with `1.0` or `0.0` in place, so after the call
`persistence['dperm2all']` equals `thresholdMatrix M epsilon`, not `M`.
For the matrix [[0,2],[2,0]] and `epsilon = 1` the entry at (0,1) changes
from 2 to 0, so the post-call matrix differs from the original. -/
theorem C3_threshold_mutates_matrix :
    thresholdMatrix M2 1 0 1 = 0 ∧ M2 0 1 = 2 ∧
    thresholdMatrix M2 1 ≠ M2 := by
  refine ⟨by decide, by decide, fun h => ?_⟩
  have h01 : thresholdMatrix M2 1 0 1 = M2 0 1 := by rw [h]
  rw [show thresholdMatrix M2 1 0 1 = 0 from by decide,
    show M2 0 1 = 2 from by decide] at h01
  exact absurd h01 (by norm_num)

lemma flatten_filter_perm {ι κ : Type _} [DecidableEq κ] (L : ι → κ) :
    ∀ (ks : List κ) (l : List ι), ks.Nodup → (∀ i ∈ l, L i ∈ ks) →
      ((ks.map fun k => l.filter (fun i => decide (L i = k))).flatten).Perm l := by
  intro ks
  induction ks with
  | nil =>
    intro l _ hcov
    cases l with
    | nil => simp
    | cons x xs => exact absurd (hcov x (List.mem_cons_self x xs)) (List.not_mem_nil _)
  | cons k ks ih =>
    intro l hnd hcov
    obtain ⟨hknotin, hnd'⟩ := List.nodup_cons.mp hnd
    simp only [List.map_cons, List.flatten_cons]
    have hrw : ∀ k' ∈ ks, l.filter (fun i => decide (L i = k')) =
        (l.filter (fun i => !(decide (L i = k)))).filter
          (fun i => decide (L i = k')) := by
      intro k' hk'
      rw [List.filter_filter]
      apply List.filter_congr
      intro a _
      by_cases h : L a = k'
      · have hnk : ¬ (k' = k) := fun hh => hknotin (hh ▸ hk')
        simp [h, hnk]
      · simp [h]
    have hflat : (ks.map fun k' => l.filter (fun i => decide (L i = k'))) =
        (ks.map fun k' => (l.filter (fun i => !(decide (L i = k)))).filter
          (fun i => decide (L i = k'))) := List.map_congr_left hrw
    rw [hflat]
    have hcov' : ∀ i ∈ l.filter (fun i => !(decide (L i = k))), L i ∈ ks := by
      intro i hi
      have hil : i ∈ l := List.mem_of_mem_filter hi
      have hne : ¬ (L i = k) := by simpa using List.of_mem_filter hi
      rcases List.mem_cons.mp (hcov i hil) with h | h
      · exact absurd h hne
      · exact h
    exact List.Perm.trans
      (List.Perm.append_left (l.filter (fun i => decide (L i = k)))
        (ih (l.filter (fun i => !(decide (L i = k)))) hnd' hcov'))
      (List.filter_append_perm _ l)

lemma range_map_getD {β : Type _} [Inhabited β] (l : List β) :
    (List.range l.length).map (fun i => l.getD i default) = l := by
  apply List.ext_getElem
  · simp
  · intro i h1 h2
    simp only [List.getElem_map, List.getElem_range]
    rw [List.getD_eq_getElem l default h2]

lemma labelNat_mem_labelKeys {n : ℕ} (M : Fin n → Fin n → ℚ) (epsilon : ℚ)
    (i : ℕ) (hi : i < n) : labelNat M epsilon i ∈ labelKeys M epsilon :=
  List.mem_dedup.mpr (List.mem_map_of_mem _ (List.mem_range.mpr hi))

/-- C5: for matching sizes the extracted identifier components partition the
identifiers: the component member lists sum to the identifier count, their
concatenation is a permutation of the identifier list, and every position
belongs to exactly one component key. -/
theorem C5_components_partition_identifiers {n : ℕ} {α β : Type _}
    [Inhabited α] [Inhabited β]
    (data_points : List α) (identifiers : List β) (M : Fin n → Fin n → ℚ)
    (epsilon : ℚ) (hdp : data_points.length = n)
    (hid : identifiers.length = n) (heps : 0 ≤ epsilon) :
    ∃ dg ig, obtain_connected_components data_points identifiers M epsilon =
        .ok (dg, ig) ∧
      ((ig.map fun p => p.2.length).sum = identifiers.length) ∧
      ((ig.map Prod.snd).flatten).Perm identifiers ∧
      (∀ i, i < n → ∃! k, k ∈ labelKeys M epsilon ∧ labelNat M epsilon i = k) := by
  have hok : obtain_connected_components data_points identifiers M epsilon =
      .ok ((labelKeys M epsilon).map
            (fun k => (k, membersOf M epsilon data_points k)),
          (labelKeys M epsilon).map
            (fun k => (k, membersOf M epsilon identifiers k))) := by
    unfold obtain_connected_components
    rw [if_pos hdp, if_pos (le_of_eq hid.symm)]
  have hsnd : (((labelKeys M epsilon).map
        (fun k => (k, membersOf M epsilon identifiers k))).map Prod.snd) =
      ((labelKeys M epsilon).map (fun k => (List.range n).filter
        (fun i => decide (labelNat M epsilon i = k)))).map
        (List.map (fun i => identifiers.getD i default)) := by
    rw [List.map_map, List.map_map]
    rfl
  have hkeys_nodup : (labelKeys M epsilon).Nodup := List.nodup_dedup _
  have hcov : ∀ i ∈ List.range n, labelNat M epsilon i ∈ labelKeys M epsilon :=
    fun i hi => labelNat_mem_labelKeys M epsilon i (List.mem_range.mp hi)
  have hperm : ((((labelKeys M epsilon).map
        (fun k => (k, membersOf M epsilon identifiers k))).map
        Prod.snd).flatten).Perm identifiers := by
    rw [hsnd, ← List.map_flatten]
    have h3 := flatten_filter_perm (labelNat M epsilon) (labelKeys M epsilon)
      (List.range n) hkeys_nodup hcov
    have h4 := h3.map (fun i => identifiers.getD i default)
    have h5 : (List.range n).map (fun i => identifiers.getD i default) =
        identifiers := by
      rw [← hid]
      exact range_map_getD identifiers
    exact h4.trans (by rw [h5])
  refine ⟨_, _, hok, ?_, hperm, ?_⟩
  · have hlen := hperm.length_eq
    rw [List.length_flatten] at hlen
    simp only [List.map_map, Function.comp] at hlen ⊢
    exact hlen
  · intro i hi
    refine ⟨labelNat M epsilon i, ⟨labelNat_mem_labelKeys M epsilon i hi, rfl⟩,
      ?_⟩
    rintro k ⟨_, hkeq⟩
    exact hkeq.symm

/-- The 3x3 distance matrix [[0, 0.5, 2], [0.5, 0, 2], [2, 2, 0]] of the
spec's Scenario C (entries written as `mkRat` so that concrete runs reduce). -/
def M3 : Fin 3 → Fin 3 → ℚ :=
  fun i j =>
    (([[0, mkRat 1 2, 2], [mkRat 1 2, 0, 2], [2, 2, 0]].getD i.val []).getD
      j.val 0)

/-- Witness for C5 on Scenario C's matrix with epsilon 0.6. -/
theorem C5_components_partition_identifiers_witness :
    ([100, 101, 102] : List ℕ).length = 3 ∧ ([0, 1, 2] : List ℕ).length = 3 ∧
    (0 : ℚ) ≤ mkRat 3 5 ∧
    (∃ dg ig, obtain_connected_components [100, 101, 102] [0, 1, 2] M3
        (mkRat 3 5) = .ok (dg, ig) ∧
      ((ig.map fun p => p.2.length).sum = ([0, 1, 2] : List ℕ).length) ∧
      ((ig.map Prod.snd).flatten).Perm [0, 1, 2] ∧
      (∀ i, i < 3 → ∃! k, k ∈ labelKeys M3 (mkRat 3 5) ∧
        labelNat M3 (mkRat 3 5) i = k)) :=
  ⟨rfl, rfl, by decide,
    C5_components_partition_identifiers [100, 101, 102] [0, 1, 2] M3
      (mkRat 3 5) rfl rfl (by decide)⟩

lemma adjB_eq_true_iff {n : ℕ} (M : Fin n → Fin n → ℚ) (epsilon : ℚ)
    (a b : Fin n) :
    adjB M epsilon a b = true ↔ (M a b ≤ epsilon ∨ M b a ≤ epsilon) := by
  unfold adjB thresholdMatrix
  rw [decide_eq_true_eq]
  by_cases h1 : M a b ≤ epsilon <;> by_cases h2 : M b a ≤ epsilon <;>
    simp [h1, h2]

lemma connRel_iff_threshold_path {n : ℕ} (M : Fin n → Fin n → ℚ)
    (epsilon : ℚ) (hsym : ∀ a b, M a b = M b a) (i j : Fin n) :
    connRel (adjB M epsilon) i j ↔
      Relation.ReflTransGen (fun a b => M a b ≤ epsilon) i j := by
  have hpt : ∀ a b : Fin n, (adjB M epsilon a b = true) ↔ M a b ≤ epsilon := by
    intro a b
    rw [adjB_eq_true_iff]
    constructor
    · rintro (h | h)
      · exact h
      · rw [hsym a b]
        exact h
    · exact Or.inl
  constructor
  · exact Relation.ReflTransGen.mono (fun a b h => (hpt a b).mp h)
  · exact Relation.ReflTransGen.mono (fun a b h => (hpt a b).mpr h)

/-- C8: two nodes receive the same component label exactly when they are
joined by a path of edges whose matrix entries are at most epsilon
(inclusive), for any symmetric (distance) matrix; and on Scenario C's
matrix [[0, 0.5, 2], [0.5, 0, 2], [2, 2, 0]] with epsilon = 0.6 = 3/5 the
extracted identifier components are [0, 1] and [2]. -/
theorem C8_same_component_iff_path :
    (∀ (n : ℕ) (M : Fin n → Fin n → ℚ) (epsilon : ℚ) (i j : Fin n),
      (∀ a b, M a b = M b a) →
      (componentLabel M epsilon i = componentLabel M epsilon j ↔
        Relation.ReflTransGen (fun a b => M a b ≤ epsilon) i j)) ∧
    mkRat 1 2 = (0.5 : ℚ) ∧ mkRat 3 5 = (0.6 : ℚ) ∧
    obtain_connected_components [100, 101, 102] [0, 1, 2] M3 (mkRat 3 5) =
      .ok ([(0, [100, 101]), (2, [102])], [(0, [0, 1]), (2, [2])]) := by
  refine ⟨?_, by norm_num [mkRat], by norm_num [mkRat], by decide⟩
  intro n M epsilon i j hsym
  exact (componentLabel_eq_iff M epsilon i j).trans
    (connRel_iff_threshold_path M epsilon hsym i j)

/-- Witness for C8's general conjunct on Scenario C's symmetric matrix. -/
theorem C8_same_component_iff_path_witness :
    (∀ a b : Fin 3, M3 a b = M3 b a) ∧
    (componentLabel M3 (mkRat 3 5) 0 = componentLabel M3 (mkRat 3 5) 1 ↔
      Relation.ReflTransGen (fun a b => M3 a b ≤ mkRat 3 5) 0 1) :=
  ⟨by decide, C8_same_component_iff_path.1 3 M3 (mkRat 3 5) 0 1 (by decide)⟩
